import Mathlib

/-!
Shallow embedding of `src/sync_esde_sd.py` (ESDE-SD-Sync) together with
proofs about its catalog-filtering, media-matching and statistics logic.

Strings are modelled as lists of characters (`Str`); the Python string
primitives used by the script (`strip`, `lower`, `split`, `replace`,
substring test, `pathlib` name/stem) are given explicit executable models.
File-system state touched by the copy routine is modelled as an
association list from destination paths to byte sizes.
-/

abbrev Str := List Char

/-- Model of the whitespace class used by Python `str.strip` and the regex
class `\s` (ASCII part). -/
def pyIsSpace (c : Char) : Bool :=
  c = ' ' || c = '\t' || c = '\n' || c = '\r' || c = '\x0b' || c = '\x0c'

/-- Model of Python `str.lower` on a single character (ASCII range). -/
def pyLowerChar (c : Char) : Char :=
  if 'A' ≤ c ∧ c ≤ 'Z' then Char.ofNat (c.toNat + 32) else c

/-- Model of Python `str.lower`. -/
def toLowerStr (s : Str) : Str := s.map pyLowerChar

/-- Model of Python `str.strip()` (drop whitespace at both ends). -/
def pyStrip (s : Str) : Str :=
  ((s.dropWhile pyIsSpace).reverse.dropWhile pyIsSpace).reverse

/-- Model of `text.replace("\\", "/")` (single-character replacement). -/
def slashNorm (s : Str) : Str := s.map (fun c => if c = '\\' then '/' else c)

/-- Model of Python `str.split("/")` (keeps empty pieces, as Python does). -/
def splitSlash : Str → List Str
  | [] => [[]]
  | c :: cs =>
    if c = '/' then [] :: splitSlash cs
    else
      match splitSlash cs with
      | [] => [[c]]
      | s :: rest => (c :: s) :: rest

/-- The string `"./"`. -/
def dotSlash : Str := ['.', '/']

/-- The string `"."`. -/
def dotSeg : Str := ['.']

/-- Model of `pathlib.Path(p).name` for slash-separated path text: the last
path segment after dropping empty and `"."` segments (the script applies it
only after backslashes have been rewritten to forward slashes). -/
def pathName (p : Str) : Str :=
  ((splitSlash p).filter (fun s => !s.isEmpty && !(s == dotSeg))).getLastD []

/-- `normalize_rom_filename_from_xml` (src/sync_esde_sd.py:85-90): strip
whitespace, normalize slashes, strip a leading `"./"`, keep only the final
path segment, lower-case it. -/
def normalize_rom_filename_from_xml (pathText : Str) : Str :=
  let p := slashNorm (pyStrip pathText)
  let p := if dotSlash.isPrefixOf p then p.drop 2 else p
  toLowerStr (pathName p)

/-- Model of `pathlib.PurePath(name).stem`: drop the extension after the
last dot, provided that dot is neither the first nor the last character. -/
def pyStem (name : Str) : Str :=
  let n := name.length
  let ri := name.reverse.indexOf '.'
  if ri < n then
    let i := n - 1 - ri
    if 0 < i ∧ i < n - 1 then name.take i else name
  else name

/-- `c` is a lower-case ASCII letter or a digit (the class `[a-z0-9]`). -/
def isLowerAlnum (c : Char) : Bool :=
  ('a' ≤ c && c ≤ 'z') || ('0' ≤ c && c ≤ '9')

/-- A character matched by the regex class `[^a-z0-9\s]`. -/
def notWordChar (c : Char) : Bool := !(isLowerAlnum c || pyIsSpace c)

/-- Replace every maximal run of characters satisfying `p` by the single
character `r` (models `re.sub(cls + "+", r, s)`); the flag records whether
the previous character was part of a run. -/
def collapseRuns (p : Char → Bool) (r : Char) : Bool → Str → Str
  | _, [] => []
  | inRun, c :: cs =>
    if p c then
      (if inRun then collapseRuns p r true cs else r :: collapseRuns p r true cs)
    else c :: collapseRuns p r false cs

/-- `normalize_stem_loose` (src/sync_esde_sd.py:93-103): lower-case, replace
runs of punctuation with spaces, collapse whitespace, trim. -/
def normalize_stem_loose (stem : Str) : Str :=
  pyStrip (collapseRuns pyIsSpace ' ' false
    (collapseRuns notWordChar ' ' false (toLowerStr stem)))

/-- Substring test, modelling Python's `needle in hay` on strings. -/
def strHas (needle : Str) : Str → Bool
  | [] => needle.isEmpty
  | c :: rest => needle.isPrefixOf (c :: rest) || strHas needle rest

/-! ### Recognized media categories (src/sync_esde_sd.py:47-50) -/

def cat3dboxes : Str := "3dboxes".data
def catBackcovers : Str := "backcovers".data
def catCovers : Str := "covers".data
def catCustom : Str := "custom".data
def catFanart : Str := "fanart".data
def catManuals : Str := "manuals".data
def catMarquees : Str := "marquees".data
def catMiximages : Str := "miximages".data
def catPhysicalmedia : Str := "physicalmedia".data
def catScreenshots : Str := "screenshots".data
def catTitlescreens : Str := "titlescreens".data
def catVideos : Str := "videos".data

def MEDIA_CATEGORIES_ALL : List Str :=
  [cat3dboxes, catBackcovers, catCovers, catCustom, catFanart, catManuals,
   catMarquees, catMiximages, catPhysicalmedia, catScreenshots, catTitlescreens, catVideos]

def dlmStr : Str := "downloaded_media".data
def pathTag : Str := "path".data

/-! ### Catalog (gamelist.xml) model -/

/-- One `<game>` element: its ordered children as `(tag, text)` pairs, where
`none` stands for an absent text node. -/
structure Game where
  children : List (Str × Option Str)
deriving DecidableEq

/-- `game.find("path")` followed by reading the text: the first child tagged
`path` (an element with no text behaves like an absent one downstream). -/
def Game.pathText (g : Game) : Option Str :=
  match g.children.find? (fun c => c.1 == pathTag) with
  | some c => c.2
  | none => none

/-! ### Category inference (src/sync_esde_sd.py:182-238) -/

/-- The path-segment list built at src:191-192: strip, normalize slashes,
split on `/`, drop empty and `"."` segments. -/
def parse_parts (text : Str) : List Str :=
  (splitSlash (slashNorm (pyStrip text))).filter (fun p => !p.isEmpty && !(p == dotSeg))

/-- `cat if cat in MEDIA_CATEGORIES_ALL else None`. -/
def optIfKnown (cat : Str) : Option Str :=
  if MEDIA_CATEGORIES_ALL.contains cat then some cat else none

/-- `parse_category_from_media_ref` (src:182-214).  Case 1 fires when
`downloaded_media` occurs with the system name right after it and a segment
two places after it; case 2 fires when the lowered system name occurs with a
following segment; each firing case returns its candidate (or `None` when
the candidate is not a known category) without falling through; otherwise
case 3 returns the first lowered segment that is a known category. -/
def parse_category_from_media_ref (text system : Str) : Option Str :=
  if text.isEmpty then none
  else
    let parts := parse_parts text
    let lowered := parts.map toLowerStr
    let case3 := lowered.find? (fun p => MEDIA_CATEGORIES_ALL.contains p)
    let case2 :=
      if lowered.contains (toLowerStr system) then
        let i := lowered.indexOf (toLowerStr system)
        if i + 1 < lowered.length then optIfKnown (lowered.getD (i + 1) [])
        else case3
      else case3
    if parts.contains dlmStr then
      let i := parts.indexOf dlmStr
      if i + 2 < parts.length ∧ toLowerStr (parts.getD (i + 1) []) = toLowerStr system then
        optIfKnown (toLowerStr (parts.getD (i + 2) []))
      else case2
    else case2

/-- The body of the `for child in list(game)` loop at src:224-236: skip
absent or blank texts, skip texts that do not look like media references,
then add the inferred category when it is selected and not already
collected. -/
def expected_step (system : Str) (selected : List Str) (acc : List Str)
    (child : Str × Option Str) : List Str :=
  match child.2 with
  | none => acc
  | some raw =>
    if (pyStrip raw).isEmpty then acc
    else if !strHas dlmStr (slashNorm (pyStrip raw)) &&
        !(MEDIA_CATEGORIES_ALL.any (fun c => strHas c (toLowerStr (pyStrip raw)))) then acc
    else
      match parse_category_from_media_ref (pyStrip raw) system with
      | some cat => if selected.contains cat && !(acc.contains cat) then acc ++ [cat] else acc
      | none => acc

/-- `expected_categories_from_game_xml` (src:217-238): scan every child text,
keep only texts that look like media references, and collect (as a set, here
a duplicate-free list in insertion order) every inferred category that is
also selected. -/
def expected_categories_from_game_xml (g : Game) (system : Str) (selected : List Str) : List Str :=
  g.children.foldl (expected_step system selected) []

/-- Lexicographic (code-point) order on strings, as Python `sorted` uses. -/
def strLe : Str → Str → Bool
  | [], _ => true
  | _ :: _, [] => false
  | a :: as, b :: bs => if a < b then true else if b < a then false else strLe as bs

def insertSorted (x : Str) : List Str → List Str
  | [] => [x]
  | y :: ys => if strLe x y then x :: y :: ys else y :: insertSorted x ys

/-- Model of Python `sorted` on a list of strings. -/
def sortStr : List Str → List Str
  | [] => []
  | x :: xs => insertSorted x (sortStr xs)

/-- `sorted(expected_from_xml) if expected_from_xml else list(effective)`
(src:384 and src:538). -/
def expected_categories_for (g : Game) (system : Str) (effective : List Str) : List Str :=
  let e := expected_categories_from_game_xml g system effective
  if e.isEmpty then effective else sortStr e

/-! ### Media index (src/sync_esde_sd.py:132-157) -/

/-- A file in a category directory: its filename and byte size. -/
structure MFile where
  name : Str
  size : Nat
deriving DecidableEq

/-- A stem-keyed index, modelling a Python dict in insertion order. -/
abbrev Idx := List (Str × List MFile)

/-- `dict.setdefault(key, []).append(f)`. -/
def insertIdx (idx : Idx) (k : Str) (f : MFile) : Idx :=
  match idx with
  | [] => [(k, [f])]
  | kv :: rest => if kv.1 == k then (kv.1, kv.2 ++ [f]) :: rest else kv :: insertIdx rest k f

/-- `dict.get(key, [])`. -/
def lookupIdx (idx : Idx) (k : Str) : List MFile :=
  match idx.find? (fun kv => kv.1 == k) with
  | some kv => kv.2
  | none => []

/-- `build_media_index` (src:132-157): exact-stem index, normalized-stem
index (only when fuzzy matching is on), and the total file count.  An
absent directory is the empty file list. -/
def build_media_index (files : List MFile) (fuzzy : Bool) : Idx × Idx × Nat :=
  files.foldl (fun acc f =>
    (insertIdx acc.1 (toLowerStr (pyStem f.name)) f,
     if fuzzy then insertIdx acc.2.1 (normalize_stem_loose (pyStem f.name)) f else acc.2.1,
     acc.2.2 + 1)) ([], [], 0)

/-! ### Media matching (src/sync_esde_sd.py:547-558 and 391-403) -/

/-- `find_matches` as the source writes it: exact-stem lookup, then (when
fuzzy matching is on and nothing matched) normalized-stem lookup, then a
scan over the exact-index keys collecting files whose key starts with the
stem. -/
def find_matches (romStem romStemNorm : Str) (exactIdx normIdx : Idx) (fuzzy : Bool) : List MFile :=
  let ms := lookupIdx exactIdx romStem
  if ms.isEmpty && fuzzy then
    let ms2 := ms ++ lookupIdx normIdx romStemNorm
    if ms2.isEmpty then
      exactIdx.foldl (fun acc kv => if romStem.isPrefixOf kv.1 then acc ++ kv.2 else acc) ms2
    else ms2
  else ms

/-- The tier-3 scan, written as the specification phrases it: every file
whose exact-index key starts with the stem. -/
def scanKeys (exactIdx : Idx) (romStem : Str) : List MFile :=
  (exactIdx.filter (fun kv => romStem.isPrefixOf kv.1)).flatMap (fun kv => kv.2)

/-- The matcher as the specification phrases it: strictly ordered tiers,
stopping at the first non-empty result. -/
def find_matches_tiers (romStem romStemNorm : Str) (exactIdx normIdx : Idx) (fuzzy : Bool) :
    List MFile :=
  let t1 := lookupIdx exactIdx romStem
  if !t1.isEmpty then t1
  else if fuzzy then
    let t2 := lookupIdx normIdx romStemNorm
    if !t2.isEmpty then t2 else scanKeys exactIdx romStem
  else []

/-! ### Copying (src/sync_esde_sd.py:160-179) -/

def copiedStr : Str := "copied".data
def skippedStr : Str := "skipped".data

/-- Status of the destination path when `copy_file` runs: absent, present
with a known byte size, or present but with `stat()` raising `OSError`. -/
inductive DstStat where
  | absent
  | present (size : Nat)
  | statFail
deriving DecidableEq

/-- The `copied`/`skipped` outcome of `copy_file` (src:160-179): skip only
when both files exist, the stat succeeds and the sizes are equal; a stat
failure is swallowed (`except OSError: pass`) and the file is copied. -/
def copy_file_result (srcExists : Bool) (srcSize : Nat) (d : DstStat) : Str :=
  match d with
  | .absent => copiedStr
  | .present sz =>
      if srcExists then (if sz = srcSize then skippedStr else copiedStr) else copiedStr
  | .statFail => copiedStr

/-- A destination path: (category, filename), standing for
`sd_out_media_root / cat / src.name`. -/
abbrev Dst := Str × Str

/-- One copy operation: destination and source byte size. -/
abbrev Op := Dst × Nat

/-- Destination-side file system: sizes of the files that exist. -/
abbrev Fs := List (Dst × Nat)

def lookupFs (fs : Fs) (d : Dst) : Option Nat :=
  match fs.find? (fun e => e.1 == d) with
  | some e => some e.2
  | none => none

def insertFs (fs : Fs) (d : Dst) (sz : Nat) : Fs :=
  match fs with
  | [] => [(d, sz)]
  | e :: rest => if e.1 == d then (d, sz) :: rest else e :: insertFs rest d sz

def dstStatOf (fs : Fs) (d : Dst) : DstStat :=
  match lookupFs fs d with
  | some sz => .present sz
  | none => .absent

/-- `copy_file` acting on the modelled destination file system (the sources
always exist there: they come from a directory listing, and a successful
`shutil.copy2` gives the destination the source's size).  In dry-run mode
the file system is left untouched. -/
def copy_file_m (fs : Fs) (dst : Dst) (srcSize : Nat) (dryRun : Bool) : Str × Fs :=
  if copy_file_result true srcSize (dstStatOf fs dst) = skippedStr then (skippedStr, fs)
  else (copiedStr, if dryRun then fs else insertFs fs dst srcSize)

/-- The inner `for src in matches` loop (src:562-568): run the copies in
order, counting copied and skipped files and threading the file system. -/
def execOps : List Op → Fs → Bool → Nat × Nat × Fs
  | [], fs, _ => (0, 0, fs)
  | op :: rest, fs, dry =>
    let r := copy_file_m fs op.1 op.2 dry
    let t := execOps rest r.2 dry
    (if r.1 = copiedStr then t.1 + 1 else t.1,
     if r.1 = copiedStr then t.2.1 else t.2.1 + 1,
     t.2.2)

/-! ### Per-system sync engine (src/sync_esde_sd.py:460-601) -/

/-- Run-wide counters (src:53-67). -/
structure RunStats where
  systems_seen : Nat := 0
  systems_processed : Nat := 0
  games_kept : Nat := 0
  games_total_in_master : Nat := 0
  media_files_copied : Nat := 0
  media_files_skipped : Nat := 0
  media_categories_attempted : Nat := 0
  media_categories_missing : Nat := 0
  categories_ignored_empty_or_missing : Nat := 0
  gamelists_written : Nat := 0
deriving DecidableEq, Repr

/-- The category loop at src:501-514 (and src:357-365): effective categories
in selection order, plus the count of selected categories whose directory
was empty or absent. -/
def category_scan (selected : List Str) (catFiles : Str → List MFile) (fuzzy : Bool) :
    List Str × Nat :=
  selected.foldl (fun acc cat =>
    if 0 < (build_media_index (catFiles cat) fuzzy).2.2 then (acc.1 ++ [cat], acc.2)
    else (acc.1, acc.2 + 1)) ([], 0)

def cat_exact_idx (catFiles : Str → List MFile) (fuzzy : Bool) (cat : Str) : Idx :=
  (build_media_index (catFiles cat) fuzzy).1

def cat_norm_idx (catFiles : Str → List MFile) (fuzzy : Bool) (cat : Str) : Idx :=
  (build_media_index (catFiles cat) fuzzy).2.1

/-- The keep test of the game loop (src:521-527): a game is retained when it
has a non-empty `<path>` text whose normalized filename is on the SD card. -/
def keep_game (romFiles : List Str) (g : Game) : Bool :=
  match g.pathText with
  | none => false
  | some pt => !pt.isEmpty && romFiles.contains (normalize_rom_filename_from_xml pt)

/-- The per-game missing-category list (`missed_cats` at src:540-570 and
`missing_cats` at src:389-405): expected categories with no match. -/
def missed_cats_for (g : Game) (system : Str) (effective : List Str) (idxE idxN : Str → Idx)
    (fuzzy : Bool) (romStem romStemNorm : Str) : List Str :=
  (expected_categories_for g system effective).filter
    (fun cat => (find_matches romStem romStemNorm (idxE cat) (idxN cat) fuzzy).isEmpty)

/-- Destinations and sizes of the matched files of one category. -/
def matchOps (cat : Str) (ms : List MFile) : List Op :=
  ms.map (fun f => ((cat, f.name), f.size))

/-- The body of `for cat in expected_categories` (src:544-571). -/
def processCat (idxE idxN : Str → Idx) (fuzzy dry : Bool) (romStem romStemNorm : Str)
    (acc : RunStats × Fs) (cat : Str) : RunStats × Fs :=
  let stats := { acc.1 with media_categories_attempted := acc.1.media_categories_attempted + 1 }
  let ms := find_matches romStem romStemNorm (idxE cat) (idxN cat) fuzzy
  if ms.isEmpty then
    ({ stats with media_categories_missing := stats.media_categories_missing + 1 }, acc.2)
  else
    let r := execOps (matchOps cat ms) acc.2 dry
    ({ stats with
        media_files_copied := stats.media_files_copied + r.1,
        media_files_skipped := stats.media_files_skipped + r.2.1 }, r.2.2)

/-- The body of `for game in master_games` (src:521-574), statistics part. -/
def processGame (system : Str) (effective : List Str) (idxE idxN : Str → Idx)
    (fuzzy dry : Bool) (romFiles : List Str) (acc : RunStats × Fs) (g : Game) : RunStats × Fs :=
  match g.pathText with
  | none => acc
  | some pt =>
    if pt.isEmpty then acc
    else
      let rf := normalize_rom_filename_from_xml pt
      if !romFiles.contains rf then acc
      else
        let stats := { acc.1 with games_kept := acc.1.games_kept + 1 }
        let romStem := toLowerStr (pyStem rf)
        (expected_categories_for g system effective).foldl
          (processCat idxE idxN fuzzy dry romStem (normalize_stem_loose romStem)) (stats, acc.2)

def countKept (games : List Game) (romFiles : List Str) : Nat :=
  (games.filter (keep_game romFiles)).length

/-- `filter_gamelist_and_sync_media` (src:460-601), statistics and
destination-file-system part, for a system whose master gamelist exists and
whose ROM set is non-empty (the early returns at src:480-487 are handled by
the caller `processSystemE` below). -/
def syncSystem (system : Str) (games : List Game) (romFiles selected : List Str)
    (catFiles : Str → List MFile) (fuzzy dry : Bool) (st : RunStats × Fs) : RunStats × Fs :=
  let scan := category_scan selected catFiles fuzzy
  let stats1 := { st.1 with
      categories_ignored_empty_or_missing := st.1.categories_ignored_empty_or_missing + scan.2,
      games_total_in_master := st.1.games_total_in_master + games.length }
  let r := games.foldl
      (processGame system scan.1 (cat_exact_idx catFiles fuzzy) (cat_norm_idx catFiles fuzzy)
        fuzzy dry romFiles)
      (stats1, st.2)
  if countKept games romFiles = 0 then r
  else
    let stats3 := if dry then r.1 else { r.1 with gamelists_written := r.1.gamelists_written + 1 }
    ({ stats3 with systems_processed := stats3.systems_processed + 1 }, r.2)

/-! ### The output document (src/sync_esde_sd.py:494-499 and 574) -/

inductive OutNode where
  | provider (p : Str)
  | game (g : Game)
deriving DecidableEq

/-- The children of the output `<gameList>` root: the deep-copied provider
node first when present, then each kept game appended in master order. -/
def buildNewRoot (provider : Option Str) (games : List Game) (romFiles : List Str) :
    List OutNode :=
  games.foldl (fun acc g => if keep_game romFiles g then acc ++ [OutNode.game g] else acc)
    (match provider with
     | some p => [OutNode.provider p]
     | none => [])

def gamesOf (nodes : List OutNode) : List Game :=
  nodes.filterMap (fun n => match n with | .game g => some g | _ => none)

/-! ### The copy plan: all copy operations a system run performs, in order -/

def catOps (idxE idxN : Str → Idx) (fuzzy : Bool) (romStem romStemNorm : Str) (cat : Str) :
    List Op :=
  matchOps cat (find_matches romStem romStemNorm (idxE cat) (idxN cat) fuzzy)

def gameOps (system : Str) (effective : List Str) (idxE idxN : Str → Idx) (fuzzy : Bool)
    (romFiles : List Str) (g : Game) : List Op :=
  match g.pathText with
  | none => []
  | some pt =>
    if pt.isEmpty then []
    else
      let rf := normalize_rom_filename_from_xml pt
      if !romFiles.contains rf then []
      else
        let romStem := toLowerStr (pyStem rf)
        (expected_categories_for g system effective).flatMap
          (catOps idxE idxN fuzzy romStem (normalize_stem_loose romStem))

def syncPlanOps (system : Str) (games : List Game) (romFiles selected : List Str)
    (catFiles : Str → List MFile) (fuzzy : Bool) : List Op :=
  games.flatMap
    (gameOps system (category_scan selected catFiles fuzzy).1 (cat_exact_idx catFiles fuzzy)
      (cat_norm_idx catFiles fuzzy) fuzzy romFiles)

/-! ### Batch processing (src/sync_esde_sd.py:604-697) -/

/-- A system's master gamelist, as `ET.parse` sees it: the file can be
missing, malformed (a parse raises `ParseError`), or well-formed. -/
inductive CatalogSrc where
  | missing
  | malformed
  | parsed (provider : Option Str) (games : List Game)

/-- Everything one system contributes to a run. -/
structure SysInput where
  name : Str
  catalog : CatalogSrc
  romFiles : List Str
  catFiles : Str → List MFile

def parseErrStr : Str := "ParseError".data

/-- Whether processing this system reaches `ET.parse` on a malformed
document (src:490): the gamelist exists, is malformed, and ROMs were found
(the missing-file and empty-ROM early returns at src:480-487 come first). -/
def raisesParse (i : SysInput) : Bool :=
  match i.catalog with
  | .malformed => !i.romFiles.isEmpty
  | _ => false

/-- One iteration of the `for system in systems` loop (src:671-682):
`filter_gamelist_and_sync_media` either returns normally or lets an
exception escape — the loop has no handler around it. -/
def processSystemE (selected : List Str) (fuzzy dry : Bool) (st : RunStats × Fs) (i : SysInput) :
    Except Str (RunStats × Fs) :=
  match i.catalog with
  | .missing => .ok st
  | .malformed => if i.romFiles.isEmpty then .ok st else .error parseErrStr
  | .parsed _ games =>
      if i.romFiles.isEmpty then .ok st
      else .ok (syncSystem i.name games i.romFiles selected i.catFiles fuzzy dry st)

structure BatchResult where
  completed : List Str
  err : Option Str
  stats : RunStats
  fs : Fs
deriving DecidableEq

/-- The batch loop: systems processed in order; an escaping exception aborts
the run, leaving the remaining systems unprocessed. -/
def runBatchSync (selected : List Str) (fuzzy dry : Bool) :
    List SysInput → RunStats × Fs → BatchResult
  | [], st => ⟨[], none, st.1, st.2⟩
  | i :: rest, st =>
    match processSystemE selected fuzzy dry st i with
    | .error e => ⟨[], some e, st.1, st.2⟩
    | .ok st' =>
      let r := runBatchSync selected fuzzy dry rest st'
      ⟨i.name :: r.completed, r.err, r.stats, r.fs⟩

/-! ### Category selection (src/sync_esde_sd.py:267-285) and main order -/

def invalidMsgStr : Str := "Invalid media categories".data

/-- The validation step of `resolve_media_categories` (src:281-283): any
name outside `MEDIA_CATEGORIES_ALL` raises `SystemExit`. -/
def resolve_media_categories (cats : List Str) : Except Str (List Str) :=
  let invalid := cats.filter (fun m => !MEDIA_CATEGORIES_ALL.contains m)
  if invalid.isEmpty then .ok cats else .error invalidMsgStr

/-- `main` (src:604-697): categories are resolved before any per-system
processing; a `SystemExit` there aborts the whole run. -/
def run_main (cats : List Str) (inputs : List SysInput) (fuzzy dry : Bool) :
    Except Str BatchResult :=
  match resolve_media_categories cats with
  | .error e => .error e
  | .ok cs => .ok (runBatchSync cs fuzzy dry inputs ({}, []))

/-! ### Specification-side definitions used to state the claims -/

/-- The four statistics the preview-mode claim compares (matched categories
are `attempted - missing`). -/
def counters4 (s : RunStats) : Nat × Nat × Nat × Nat :=
  (s.media_files_copied, s.media_files_skipped,
   s.media_categories_attempted, s.media_categories_missing)

/-- The claim's description of the retained-entry set: entries with a path
field whose normalized filename key is among the discovered filenames. -/
def claim_keep (romFiles : List Str) (g : Game) : Bool :=
  match g.pathText with
  | none => false
  | some pt => romFiles.contains (normalize_rom_filename_from_xml pt)

/-- Claim rule 1: a `downloaded_media` segment followed by the system name
followed by a known category name. -/
def claimRule1Matches (parts : List Str) (system : Str) : Bool :=
  (List.range parts.length).any (fun i =>
    parts.getD i [] == dlmStr &&
    toLowerStr (parts.getD (i + 1) []) == toLowerStr system &&
    decide (i + 2 < parts.length) &&
    MEDIA_CATEGORIES_ALL.contains (toLowerStr (parts.getD (i + 2) [])))

/-- Claim rule 2: a segment equal (case-insensitively) to the system name
followed immediately by a known category name. -/
def claimRule2Matches (parts : List Str) (system : Str) : Bool :=
  (List.range parts.length).any (fun i =>
    toLowerStr (parts.getD i []) == toLowerStr system &&
    decide (i + 1 < parts.length) &&
    MEDIA_CATEGORIES_ALL.contains (toLowerStr (parts.getD (i + 1) [])))

/-- Claim rule 3: the first path segment that is itself a known category. -/
def claimRule3Result (parts : List Str) : Option Str :=
  (parts.map toLowerStr).find? (fun p => MEDIA_CATEGORIES_ALL.contains p)

/-- The structural guard under which the source's case 1 decides
terminally. -/
def guard1 (parts : List Str) (system : Str) : Bool :=
  parts.contains dlmStr &&
    (decide (parts.indexOf dlmStr + 2 < parts.length) &&
     toLowerStr (parts.getD (parts.indexOf dlmStr + 1) []) == toLowerStr system)

/-- The structural guard under which the source's case 2 decides
terminally. -/
def guard2 (lowered : List Str) (system : Str) : Bool :=
  lowered.contains (toLowerStr system) &&
    decide (lowered.indexOf (toLowerStr system) + 1 < lowered.length)

/-- The category names as the specification spells them (hyphenated). -/
def hy3dboxes : Str := "3d-boxes".data
def hyBackcovers : Str := "back-covers".data
def hyFanart : Str := "fan-art".data
def hyMiximages : Str := "mix-images".data
def hyPhysicalmedia : Str := "physical-media".data
def hyTitlescreens : Str := "title-screens".data

def claimedCategoryNames : List Str :=
  [hy3dboxes, hyBackcovers, catCovers, catCustom, hyFanart, catManuals,
   catMarquees, hyMiximages, hyPhysicalmedia, catScreenshots, hyTitlescreens, catVideos]

/-- The destinations of a list of copy operations. -/
def opDsts (ops : List Op) : List Dst := ops.map (fun o => o.1)

/-- Two destination file systems agree on every destination in `l`. -/
def AgreeOn (fsr fsd : Fs) (l : List Dst) : Prop :=
  ∀ d ∈ l, lookupFs fsr d = lookupFs fsd d

/-! ### Concrete inputs used in counterexamples and witnesses -/

def sysSwitch : Str := "switch".data

/-- `"foo/switch/bar/covers/x.png"`: case 2's structural guard fires
(`switch` has a following segment) but the following segment is not a known
category. -/
def c4text : Str := "foo/switch/bar/covers/x.png".data

/-- `"a/covers/b.png"`: neither structural guard fires, and a segment is a
known category. -/
def c4witText : Str := "a/covers/b.png".data

def pathGameRom : Str := "./game.rom".data
def pathGameZip : Str := "./game.zip".data
def romGameRom : Str := "game.rom".data
def romGameZip : Str := "game.zip".data
def fnGamePng : Str := "game.png".data

def gameRomEntry : Game := ⟨[(pathTag, some pathGameRom)]⟩
def gameZipEntry : Game := ⟨[(pathTag, some pathGameZip)]⟩

def mfGamePng : MFile := ⟨fnGamePng, 5⟩

/-- A media tree whose `covers` directory holds exactly `game.png`. -/
def coversOnly : Str → List MFile := fun c => if c == catCovers then [mfGamePng] else []

/-- The empty media tree. -/
def emptyCatFiles : Str → List MFile := fun _ => []

def selCovers : List Str := [catCovers]
def selCoversVideos : List Str := [catCovers, catVideos]

def nameNsw : Str := "nsw".data
def sysBadName : Str := "bad".data
def sysGoodName : Str := "good".data

/-- A system whose master gamelist is malformed and whose ROM directory is
non-empty, so processing it reaches `ET.parse`. -/
def sysBad : SysInput := ⟨sysBadName, .malformed, [romGameRom], emptyCatFiles⟩

/-- A healthy system: well-formed gamelist with one matching game. -/
def sysGood : SysInput := ⟨sysGoodName, .parsed none [gameRomEntry], [romGameRom], coversOnly⟩

/-- A system where two kept games (`game.rom`, `game.zip`) share the stem
`game` and hence match the same `covers/game.png`, so the run copies to the
same destination twice. -/
def sysDup : SysInput :=
  ⟨nameNsw, .parsed none [gameRomEntry, gameZipEntry], [romGameRom, romGameZip], coversOnly⟩

deriving instance DecidableEq for Except

/-- No two adjacent characters of `l` both satisfy `p` (used to describe
strings whose whitespace is already collapsed). -/
def NoTwo (p : Char → Bool) (l : Str) : Prop :=
  l.Chain' (fun a b => ¬(p a = true ∧ p b = true))

/-!
## Lemmas and theorems
-/

/-! ### Generic helper lemmas -/

theorem foldl_append_scan (romStem : Str) (exactIdx : Idx) :
    ∀ init : List MFile,
      exactIdx.foldl (fun acc kv => if romStem.isPrefixOf kv.1 then acc ++ kv.2 else acc) init =
        init ++ scanKeys exactIdx romStem := by
  induction exactIdx with
  | nil => intro init; simp [scanKeys]
  | cons kv rest ih =>
    intro init
    simp only [List.foldl_cons]
    by_cases h : romStem.isPrefixOf kv.1
    · rw [if_pos h, ih]
      simp [scanKeys, List.filter_cons, h]
    · rw [if_neg h, ih]
      simp [scanKeys, List.filter_cons, h]

theorem buildNewRoot_foldl (romFiles : List Str) (games : List Game) :
    ∀ init : List OutNode,
      games.foldl (fun acc g => if keep_game romFiles g then acc ++ [OutNode.game g] else acc)
          init =
        init ++ (games.filter (keep_game romFiles)).map OutNode.game := by
  induction games with
  | nil => intro init; simp
  | cons g rest ih =>
    intro init
    simp only [List.foldl_cons]
    by_cases h : keep_game romFiles g
    · rw [if_pos h, ih]
      simp [List.filter_cons, h]
    · rw [if_neg h, ih]
      simp [List.filter_cons, h]

theorem gamesOf_append (a b : List OutNode) : gamesOf (a ++ b) = gamesOf a ++ gamesOf b := by
  simp [gamesOf]

theorem gamesOf_map_game (l : List Game) : gamesOf (l.map OutNode.game) = l := by
  induction l with
  | nil => rfl
  | cons g rest ih => simp [gamesOf] at ih ⊢; exact ih

/-! ### Claim C6 -/

/-- Claim C6: for every stem, the matching tiers are applied in strict order
stopping at the first non-empty result — exact-stem lookup first, then (only
if fuzzy is enabled and the exact tier was empty) normalized-stem lookup,
then (only if fuzzy is enabled and still empty) the prefix scan of
exact-index keys; in particular, when the stem is present in the exact
index, the result is the exact tier's files. -/
theorem c6_matching_tiers (romStem romStemNorm : Str) (exactIdx normIdx : Idx) (fuzzy : Bool) :
    find_matches romStem romStemNorm exactIdx normIdx fuzzy =
      find_matches_tiers romStem romStemNorm exactIdx normIdx fuzzy := by
  unfold find_matches find_matches_tiers
  cases fuzzy with
  | false =>
    by_cases h1 : (lookupIdx exactIdx romStem).isEmpty
    · have e1 : lookupIdx exactIdx romStem = [] := List.isEmpty_iff.mp h1
      simp [e1]
    · simp [h1]
  | true =>
    by_cases h1 : (lookupIdx exactIdx romStem).isEmpty
    · have e1 : lookupIdx exactIdx romStem = [] := List.isEmpty_iff.mp h1
      by_cases h2 : (lookupIdx normIdx romStemNorm).isEmpty
      · have e2 : lookupIdx normIdx romStemNorm = [] := List.isEmpty_iff.mp h2
        simp only [e1, e2]
        simpa using foldl_append_scan romStem exactIdx []
      · simp [e1, h2]
    · simp [h1]

/-! ### Claim C7 -/

/-- Claim C7: the copy operation skips exactly when the destination exists
with the source's byte size; a failing size-stat is treated as not-a-skip
and the file is copied; a skip leaves the destination file system untouched
while a real-mode copy records the source's size at the destination. -/
theorem c7_copy_skip (srcSize : Nat) (d : DstStat) :
    (copy_file_result true srcSize d = skippedStr ↔ d = DstStat.present srcSize) ∧
    (d = DstStat.statFail → copy_file_result true srcSize d = copiedStr) ∧
    (∀ fs dst dry, lookupFs fs dst = some srcSize →
      copy_file_m fs dst srcSize dry = (skippedStr, fs)) ∧
    (∀ fs dst, lookupFs fs dst ≠ some srcSize →
      copy_file_m fs dst srcSize false = (copiedStr, insertFs fs dst srcSize)) := by
  have hne : copiedStr ≠ skippedStr := by decide
  refine ⟨?_, ?_, ?_, ?_⟩
  · cases d with
    | absent => simp [copy_file_result, hne]
    | statFail => simp [copy_file_result, hne]
    | present sz =>
      by_cases hsz : sz = srcSize
      · subst hsz; simp [copy_file_result]
      · simp [copy_file_result, hsz, hne]
  · intro hd; subst hd; simp [copy_file_result]
  · intro fs dst dry h
    unfold copy_file_m dstStatOf
    rw [h]
    simp [copy_file_result]
  · intro fs dst h
    unfold copy_file_m dstStatOf
    cases hl : lookupFs fs dst with
    | none => simp [copy_file_result, hne]
    | some sz =>
      have hsz : sz ≠ srcSize := by
        intro he; exact h (by rw [hl, he])
      simp [copy_file_result, hsz, hne]

/-! ### Claim C10 -/

/-- Claim C10: in sync mode the output document preserves master order — the
retained entries appear in the same relative order as in the master (the
output game-node list is precisely the filtered master list) — and when a
provider node is present it is the first child, before every game entry. -/
theorem c10_order_and_provider (games : List Game) (romFiles : List Str) :
    (∀ p : Str, buildNewRoot (some p) games romFiles =
      OutNode.provider p :: (games.filter (keep_game romFiles)).map OutNode.game) ∧
    buildNewRoot none games romFiles =
      (games.filter (keep_game romFiles)).map OutNode.game := by
  constructor
  · intro p
    unfold buildNewRoot
    rw [buildNewRoot_foldl]
    rfl
  · unfold buildNewRoot
    rw [buildNewRoot_foldl]
    rfl

/-! ### Claim C1 -/

theorem normalize_nil : normalize_rom_filename_from_xml [] = [] := by decide

theorem keep_eq_claim (romFiles : List Str) (h : ([] : Str) ∉ romFiles) (g : Game) :
    keep_game romFiles g = claim_keep romFiles g := by
  unfold keep_game claim_keep
  cases hp : g.pathText with
  | none => rfl
  | some pt =>
    by_cases he : pt.isEmpty
    · have hpt : pt = [] := List.isEmpty_iff.mp he
      subst hpt
      have hc : romFiles.contains ([] : Str) = false := by simpa using h
      simp only [normalize_nil, hc]
      simp [normalize_nil, hc]
    · simp [he]

/-- Claim C1: for every system processed in sync mode, the game entries
written to the output document are exactly the master entries that have a
path field and whose normalized filename key is among the filenames
discovered under the system's game directory (which are non-empty names) —
none outside this set is written and none inside it is dropped, order
included. -/
theorem c1_output_entry_set (provider : Option Str) (games : List Game) (romFiles : List Str)
    (h : ([] : Str) ∉ romFiles) :
    gamesOf (buildNewRoot provider games romFiles) = games.filter (claim_keep romFiles) := by
  have hfilter : games.filter (keep_game romFiles) = games.filter (claim_keep romFiles) :=
    List.filter_congr (fun g _ => keep_eq_claim romFiles h g)
  cases provider with
  | none =>
    unfold buildNewRoot
    rw [buildNewRoot_foldl]
    rw [← hfilter]
    simpa using gamesOf_map_game (games.filter (keep_game romFiles))
  | some p =>
    unfold buildNewRoot
    rw [buildNewRoot_foldl]
    rw [gamesOf_append, gamesOf_map_game, ← hfilter]
    rfl

/-! ### Claim C8 -/

/-- Claim C8 counterexample: `3d-boxes` is in the enumeration the claim
lists, but a selection containing it is rejected — the run aborts with the
invalid-category message even though a healthy system was waiting. -/
theorem c8_counterexample :
    hy3dboxes ∈ claimedCategoryNames ∧
    hy3dboxes ∉ MEDIA_CATEGORIES_ALL ∧
    run_main [hy3dboxes] [sysGood] false false = .error invalidMsgStr := by
  refine ⟨by decide, by decide, by decide⟩

/-- Claim C8 (amended): the recognized category names are exactly the
unhyphenated enumeration `3dboxes, backcovers, covers, custom, fanart,
manuals, marquees, miximages, physicalmedia, screenshots, titlescreens,
videos`; any selection within it is accepted and the run proceeds to the
batch, and any selection containing a name outside it aborts the run with a
descriptive message before any per-system processing. -/
theorem c8_amended_category_names (sel : List Str) (inputs : List SysInput) (fuzzy dry : Bool) :
    MEDIA_CATEGORIES_ALL =
      [cat3dboxes, catBackcovers, catCovers, catCustom, catFanart, catManuals,
       catMarquees, catMiximages, catPhysicalmedia, catScreenshots, catTitlescreens,
       catVideos] ∧
    ((∀ m ∈ sel, m ∈ MEDIA_CATEGORIES_ALL) →
      run_main sel inputs fuzzy dry = .ok (runBatchSync sel fuzzy dry inputs ({}, []))) ∧
    ((∃ m ∈ sel, m ∉ MEDIA_CATEGORIES_ALL) →
      run_main sel inputs fuzzy dry = .error invalidMsgStr) := by
  refine ⟨rfl, ?_, ?_⟩
  · intro hall
    have hnil : sel.filter (fun m => !MEDIA_CATEGORIES_ALL.contains m) = [] := by
      rw [List.filter_eq_nil_iff]
      intro a ha
      simp [hall a ha]
    have hemp : (sel.filter (fun m => !MEDIA_CATEGORIES_ALL.contains m)).isEmpty = true := by
      rw [hnil]; rfl
    unfold run_main resolve_media_categories
    rw [if_pos hemp]
  · rintro ⟨m, hm, hnot⟩
    have hmem : m ∈ sel.filter (fun m => !MEDIA_CATEGORIES_ALL.contains m) := by
      rw [List.mem_filter]
      exact ⟨hm, by simpa using hnot⟩
    have hf : ¬((sel.filter (fun m => !MEDIA_CATEGORIES_ALL.contains m)).isEmpty = true) := by
      intro he
      rw [List.isEmpty_iff.mp he] at hmem
      cases hmem
    unfold run_main resolve_media_categories
    rw [if_neg hf]

/-! ### Claim C3 -/

/-- Claim C3 counterexample: a malformed master gamelist for the first
system makes the parse error escape the per-system step — the batch records
the error and the healthy second system is never processed. -/
theorem c3_counterexample :
    (runBatchSync selCovers false false [sysBad, sysGood] ({}, [])).err = some parseErrStr ∧
    (runBatchSync selCovers false false [sysBad, sysGood] ({}, [])).completed = [] := by
  refine ⟨by decide, by decide⟩

/-- Claim C3 (amended): only the missing-gamelist and empty-ROM-set
conditions are isolated at the system boundary; when no system reaches
`ET.parse` on a malformed document, every system in the list is processed
and no exception escapes, but a malformed catalog document raises an
unhandled parse error that halts the batch. -/
theorem c3_amended_isolation (sel : List Str) (fuzzy dry : Bool) :
    ∀ (inputs : List SysInput) (st : RunStats × Fs),
      (∀ i ∈ inputs, raisesParse i = false) →
      (runBatchSync sel fuzzy dry inputs st).err = none ∧
      (runBatchSync sel fuzzy dry inputs st).completed = inputs.map (fun i => i.name) := by
  intro inputs
  induction inputs with
  | nil => intro st _; exact ⟨rfl, rfl⟩
  | cons i rest ih =>
    intro st hall
    have hi : raisesParse i = false := hall i (by simp)
    have hrest : ∀ j ∈ rest, raisesParse j = false := fun j hj => hall j (by simp [hj])
    have hok : ∃ st', processSystemE sel fuzzy dry st i = .ok st' := by
      unfold processSystemE
      cases hc : i.catalog with
      | missing => exact ⟨st, rfl⟩
      | malformed =>
        have hre : i.romFiles.isEmpty = true := by
          unfold raisesParse at hi
          rw [hc] at hi
          simpa using hi
        exact ⟨st, by simp [hre]⟩
      | parsed p games =>
        by_cases hr : i.romFiles.isEmpty
        · exact ⟨st, by simp [hr]⟩
        · refine ⟨syncSystem i.name games i.romFiles sel i.catFiles fuzzy dry st, ?_⟩
          simp [hr]
    obtain ⟨st', hst'⟩ := hok
    have hrec := ih st' hrest
    simp only [runBatchSync, hst']
    simpa using hrec

/-! ### Claim C4 -/

/-- Claim C4 counterexample: on `"foo/switch/bar/covers/x.png"` with system
`switch`, the claim's rules 1 and 2 do not match while `covers` is a path
segment that is a known category, so the claim says rule 3 yields `covers`;
the code returns nothing, because case 2's structural guard (`switch` with a
following segment) fires and decides terminally. -/
theorem c4_counterexample :
    claimRule1Matches (parse_parts c4text) sysSwitch = false ∧
    claimRule2Matches (parse_parts c4text) sysSwitch = false ∧
    claimRule3Result (parse_parts c4text) = some catCovers ∧
    parse_category_from_media_ref c4text sysSwitch = none := by
  refine ⟨by decide, by decide, by decide, by decide⟩

/-- Claim C4 (amended): the three rules are tried in order, but rules 1 and
2 decide *terminally* whenever their structural guard fires — rule 1 when
`downloaded_media` occurs, the next segment equals the system and a segment
exists two after it, rule 2 when the lowered system name occurs with a
following segment — returning the candidate if it is a known category and
nothing otherwise; only when neither structural guard fires does rule 3
return the first segment that is a known category.  Resolved categories are
further filtered by the selected set elsewhere. -/
theorem c4_amended_rule_order (text system : Str) (hne : text ≠ []) :
    (guard1 (parse_parts text) system = true →
      parse_category_from_media_ref text system =
        optIfKnown (toLowerStr
          ((parse_parts text).getD ((parse_parts text).indexOf dlmStr + 2) []))) ∧
    (guard1 (parse_parts text) system = false →
      guard2 ((parse_parts text).map toLowerStr) system = true →
      parse_category_from_media_ref text system =
        optIfKnown (((parse_parts text).map toLowerStr).getD
          (((parse_parts text).map toLowerStr).indexOf (toLowerStr system) + 1) [])) ∧
    (guard1 (parse_parts text) system = false →
      guard2 ((parse_parts text).map toLowerStr) system = false →
      parse_category_from_media_ref text system = claimRule3Result (parse_parts text)) := by
  have hemp : text.isEmpty = false := by
    cases text with
    | nil => exact absurd rfl hne
    | cons c cs => rfl
  refine ⟨?_, ?_, ?_⟩
  · intro hg1
    rw [guard1, Bool.and_eq_true, Bool.and_eq_true] at hg1
    obtain ⟨hc, hlen, heq⟩ := hg1
    rw [parse_category_from_media_ref]
    simp only [hemp, Bool.false_eq_true, if_false]
    rw [if_pos hc]
    rw [if_pos ⟨of_decide_eq_true hlen, by simpa using heq⟩]
  · intro hg1 hg2
    rw [guard1] at hg1
    rw [guard2, Bool.and_eq_true] at hg2
    obtain ⟨hc2, hlen2⟩ := hg2
    rw [parse_category_from_media_ref]
    simp only [hemp, Bool.false_eq_true, if_false]
    by_cases hc : (parse_parts text).contains dlmStr
    · rw [if_pos hc]
      have hfail : ¬((parse_parts text).indexOf dlmStr + 2 < (parse_parts text).length ∧
          toLowerStr ((parse_parts text).getD ((parse_parts text).indexOf dlmStr + 1) []) =
            toLowerStr system) := by
        intro ⟨h1, h2⟩
        rw [Bool.and_eq_false_iff] at hg1
        cases hg1 with
        | inl h => rw [h] at hc; cases hc
        | inr h =>
          rw [Bool.and_eq_false_iff] at h
          cases h with
          | inl h => rw [decide_eq_true h1] at h; cases h
          | inr h => rw [h2] at h; simp at h
      rw [if_neg hfail]
      rw [if_pos hc2, if_pos (of_decide_eq_true hlen2)]
    · rw [if_neg hc]
      rw [if_pos hc2, if_pos (of_decide_eq_true hlen2)]
  · intro hg1 hg2
    rw [guard1] at hg1
    rw [guard2] at hg2
    rw [parse_category_from_media_ref]
    simp only [hemp, Bool.false_eq_true, if_false]
    have hcase2 : (if ((parse_parts text).map toLowerStr).contains (toLowerStr system) then
        (if ((parse_parts text).map toLowerStr).indexOf (toLowerStr system) + 1 <
            ((parse_parts text).map toLowerStr).length then
          optIfKnown (((parse_parts text).map toLowerStr).getD
            (((parse_parts text).map toLowerStr).indexOf (toLowerStr system) + 1) [])
        else ((parse_parts text).map toLowerStr).find?
          (fun p => MEDIA_CATEGORIES_ALL.contains p))
      else ((parse_parts text).map toLowerStr).find?
        (fun p => MEDIA_CATEGORIES_ALL.contains p)) =
        claimRule3Result (parse_parts text) := by
      rw [Bool.and_eq_false_iff] at hg2
      cases hg2 with
      | inl h => rw [h]; rfl
      | inr h =>
        by_cases hc2 : ((parse_parts text).map toLowerStr).contains (toLowerStr system)
        · rw [if_pos hc2]
          rw [if_neg (by simpa using of_decide_eq_false h)]
          rfl
        · rw [if_neg hc2]; rfl
    by_cases hc : (parse_parts text).contains dlmStr
    · rw [if_pos hc]
      have hfail : ¬((parse_parts text).indexOf dlmStr + 2 < (parse_parts text).length ∧
          toLowerStr ((parse_parts text).getD ((parse_parts text).indexOf dlmStr + 1) []) =
            toLowerStr system) := by
        intro ⟨h1, h2⟩
        rw [Bool.and_eq_false_iff] at hg1
        cases hg1 with
        | inl h => rw [h] at hc; cases hc
        | inr h =>
          rw [Bool.and_eq_false_iff] at h
          cases h with
          | inl h => rw [decide_eq_true h1] at h; cases h
          | inr h => rw [h2] at h; simp at h
      rw [if_neg hfail]
      exact hcase2
    · rw [if_neg hc]
      exact hcase2


/-! ### Claim C5 -/

theorem build_media_index_total (fuzzy : Bool) (files : List MFile) :
    (build_media_index files fuzzy).2.2 = files.length := by
  have aux : ∀ (fs : List MFile) (acc : Idx × Idx × Nat),
      (fs.foldl (fun acc f =>
        (insertIdx acc.1 (toLowerStr (pyStem f.name)) f,
         if fuzzy then insertIdx acc.2.1 (normalize_stem_loose (pyStem f.name)) f else acc.2.1,
         acc.2.2 + 1)) acc).2.2 = acc.2.2 + fs.length := by
    intro fs
    induction fs with
    | nil => intro acc; simp
    | cons f rest ih =>
      intro acc
      rw [List.foldl_cons, ih]
      simp
      omega
  unfold build_media_index
  rw [aux]
  simp

theorem category_scan_eq (selected : List Str) (catFiles : Str → List MFile) (fuzzy : Bool) :
    category_scan selected catFiles fuzzy =
      (selected.filter (fun c => !(catFiles c).isEmpty),
       (selected.filter (fun c => (catFiles c).isEmpty)).length) := by
  have aux : ∀ (sel : List Str) (acc : List Str × Nat),
      sel.foldl (fun acc cat =>
        if 0 < (build_media_index (catFiles cat) fuzzy).2.2 then (acc.1 ++ [cat], acc.2)
        else (acc.1, acc.2 + 1)) acc =
      (acc.1 ++ sel.filter (fun c => !(catFiles c).isEmpty),
       acc.2 + (sel.filter (fun c => (catFiles c).isEmpty)).length) := by
    intro sel
    induction sel with
    | nil => intro acc; simp
    | cons cat rest ih =>
      intro acc
      rw [List.foldl_cons]
      by_cases h : 0 < (build_media_index (catFiles cat) fuzzy).2.2
      · have hne : (catFiles cat).isEmpty = false := by
          rw [build_media_index_total] at h
          cases hc : catFiles cat with
          | nil => rw [hc] at h; simp at h
          | cons a l => rfl
        rw [if_pos h, ih]
        simp [List.filter_cons, hne]
      · have he : (catFiles cat).isEmpty = true := by
          rw [build_media_index_total] at h
          cases hc : catFiles cat with
          | nil => rfl
          | cons a l => rw [hc] at h; simp at h
        rw [if_neg h, ih]
        simp [List.filter_cons, he]
        omega
  unfold category_scan
  rw [aux]
  simp

theorem expected_step_sub (system : Str) (selected acc : List Str)
    (child : Str × Option Str) (hacc : ∀ c ∈ acc, c ∈ selected) :
    ∀ c ∈ expected_step system selected acc child, c ∈ selected := by
  unfold expected_step
  cases hch : child.2 with
  | none => simp only [hch]; exact hacc
  | some raw =>
    simp only [hch]
    by_cases h1 : (pyStrip raw).isEmpty
    · rw [if_pos h1]; exact hacc
    · rw [if_neg h1]
      by_cases h2 : (!strHas dlmStr (slashNorm (pyStrip raw)) &&
          !(MEDIA_CATEGORIES_ALL.any (fun c => strHas c (toLowerStr (pyStrip raw))))) = true
      · rw [if_pos h2]; exact hacc
      · rw [if_neg h2]
        cases hp : parse_category_from_media_ref (pyStrip raw) system with
        | none => exact hacc
        | some cat =>
          by_cases h3 : (selected.contains cat && !(acc.contains cat)) = true
          · intro d hd
            simp only [h3, if_true] at hd
            rw [List.mem_append] at hd
            cases hd with
            | inl hd => exact hacc d hd
            | inr hd =>
              rw [List.mem_singleton] at hd
              subst hd
              have := (Bool.and_eq_true _ _).mp h3
              simpa using this.1
          · rw [Bool.not_eq_true] at h3
            intro d hd
            simp only [h3, Bool.false_eq_true, if_false] at hd
            exact hacc d hd

theorem expected_fold_sub (system : Str) (selected : List Str) :
    ∀ (children : List (Str × Option Str)) (acc : List Str),
      (∀ c ∈ acc, c ∈ selected) →
      ∀ c ∈ children.foldl (expected_step system selected) acc, c ∈ selected := by
  intro children
  induction children with
  | nil => intro acc hacc; exact hacc
  | cons child rest ih =>
    intro acc hacc
    rw [List.foldl_cons]
    exact ih _ (expected_step_sub system selected acc child hacc)

theorem expected_from_xml_sub (g : Game) (system : Str) (selected : List Str) :
    ∀ c ∈ expected_categories_from_game_xml g system selected, c ∈ selected := by
  unfold expected_categories_from_game_xml
  exact expected_fold_sub system selected g.children [] (by simp)

theorem mem_insertSorted (x y : Str) (l : List Str) :
    y ∈ insertSorted x l ↔ y = x ∨ y ∈ l := by
  induction l with
  | nil => simp [insertSorted]
  | cons a rest ih =>
    unfold insertSorted
    by_cases h : strLe x a
    · simp [h]
    · simp only [h, Bool.false_eq_true, if_false, List.mem_cons, ih]
      tauto

theorem mem_sortStr (y : Str) (l : List Str) : y ∈ sortStr l ↔ y ∈ l := by
  induction l with
  | nil => simp [sortStr]
  | cons a rest ih => simp [sortStr, mem_insertSorted, ih]

theorem expected_for_sub (g : Game) (system : Str) (effective : List Str) :
    ∀ c ∈ expected_categories_for g system effective, c ∈ effective := by
  unfold expected_categories_for
  by_cases h : (expected_categories_from_game_xml g system effective).isEmpty
  · simp [h]
  · simp only [h, Bool.false_eq_true, if_false]
    intro c hc
    rw [mem_sortStr] at hc
    exact expected_from_xml_sub g system effective c hc

/-- Claim C5: a selected category whose source directory is absent or empty
is excluded from the effective set, from every per-game expected-category
computation (inference is filtered by the effective set and the fallback is
the effective set), never appears in a per-game missing-category report, and
is counted in the ignored-categories total (one per empty selected
category). -/
theorem c5_category_pruning (selected : List Str) (catFiles : Str → List MFile) (fuzzy : Bool)
    (system : Str) (g : Game) (cat : Str)
    (hsel : cat ∈ selected) (hempty : catFiles cat = []) :
    cat ∉ (category_scan selected catFiles fuzzy).1 ∧
    cat ∉ expected_categories_for g system (category_scan selected catFiles fuzzy).1 ∧
    (∀ romStem romStemNorm,
      cat ∉ missed_cats_for g system (category_scan selected catFiles fuzzy).1
        (cat_exact_idx catFiles fuzzy) (cat_norm_idx catFiles fuzzy) fuzzy romStem romStemNorm) ∧
    (category_scan selected catFiles fuzzy).2 =
      (selected.filter (fun c => (catFiles c).isEmpty)).length ∧
    cat ∈ selected.filter (fun c => (catFiles c).isEmpty) := by
  have heff : cat ∉ (category_scan selected catFiles fuzzy).1 := by
    rw [category_scan_eq]
    intro h
    rw [List.mem_filter] at h
    rw [hempty] at h
    simp at h
  refine ⟨heff, ?_, ?_, ?_, ?_⟩
  · intro h
    exact heff (expected_for_sub _ _ _ _ h)
  · intro rs rn h
    unfold missed_cats_for at h
    rw [List.mem_filter] at h
    exact heff (expected_for_sub _ _ _ _ h.1)
  · rw [category_scan_eq]
  · rw [List.mem_filter]
    refine ⟨hsel, by rw [hempty]; rfl⟩

/-! ### Claim C2 -/

theorem opDsts_append (a b : List Op) : opDsts (a ++ b) = opDsts a ++ opDsts b := by
  simp [opDsts]

theorem lookupFs_insertFs_ne (d d' : Dst) (sz : Nat) (h : d' ≠ d) :
    ∀ fs : Fs, lookupFs (insertFs fs d sz) d' = lookupFs fs d' := by
  have hdd : (d == d') = false := by
    rw [beq_eq_false_iff_ne]
    exact fun he => h he.symm
  intro fs
  induction fs with
  | nil =>
    simp [insertFs, lookupFs, List.find?, hdd]
  | cons e rest ih =>
    by_cases he : (e.1 == d) = true
    · have he1 : e.1 = d := by simpa using he
      simp [insertFs, lookupFs, List.find?, he, he1, hdd]
    · by_cases hd2 : (e.1 == d') = true
      · simp [insertFs, lookupFs, List.find?, he, hd2]
      · simp only [lookupFs] at ih
        simp [insertFs, lookupFs, List.find?, he, hd2, ih]

theorem copy_file_m_dry (fs : Fs) (dst : Dst) (sz : Nat) :
    (copy_file_m fs dst sz true).2 = fs := by
  unfold copy_file_m
  by_cases h : copy_file_result true sz (dstStatOf fs dst) = skippedStr
  · rw [if_pos h]
  · rw [if_neg h]
    simp

theorem copy_file_m_congr (fs fs' : Fs) (dst : Dst) (sz : Nat) (dry dry' : Bool)
    (h : lookupFs fs dst = lookupFs fs' dst) :
    (copy_file_m fs dst sz dry).1 = (copy_file_m fs' dst sz dry').1 := by
  unfold copy_file_m dstStatOf
  rw [h]
  by_cases h2 : copy_file_result true sz
      (match lookupFs fs' dst with
       | some sz => DstStat.present sz
       | none => DstStat.absent) = skippedStr
  · rw [if_pos h2, if_pos h2]
  · rw [if_neg h2, if_neg h2]

theorem copy_file_m_lookup_ne (fs : Fs) (dst d' : Dst) (sz : Nat) (dry : Bool) (h : d' ≠ dst) :
    lookupFs (copy_file_m fs dst sz dry).2 d' = lookupFs fs d' := by
  unfold copy_file_m
  by_cases h1 : copy_file_result true sz (dstStatOf fs dst) = skippedStr
  · rw [if_pos h1]
  · rw [if_neg h1]
    cases dry with
    | true => rfl
    | false => exact lookupFs_insertFs_ne dst d' sz h fs

theorem execOps_dry_fs (ops : List Op) : ∀ fs : Fs, (execOps ops fs true).2.2 = fs := by
  induction ops with
  | nil => intro fs; rfl
  | cons op rest ih =>
    intro fs
    show (execOps rest (copy_file_m fs op.1 op.2 true).2 true).2.2 = fs
    rw [ih, copy_file_m_dry]

theorem execOps_dry_real (ops : List Op) :
    ∀ (others : List Dst) (fsd fsr : Fs),
      AgreeOn fsr fsd (opDsts ops ++ others) →
      (opDsts ops ++ others).Nodup →
      (execOps ops fsr false).1 = (execOps ops fsd true).1 ∧
      (execOps ops fsr false).2.1 = (execOps ops fsd true).2.1 ∧
      AgreeOn (execOps ops fsr false).2.2 fsd others := by
  induction ops with
  | nil =>
    intro others fsd fsr hag _
    exact ⟨rfl, rfl, fun d hd => hag d (by simpa [opDsts] using hd)⟩
  | cons op rest ih =>
    intro others fsd fsr hag hnd
    have hcons : opDsts (op :: rest) ++ others = op.1 :: (opDsts rest ++ others) := by
      simp [opDsts]
    rw [hcons] at hag hnd
    have hmemop : op.1 ∉ opDsts rest ++ others := (List.nodup_cons.mp hnd).1
    have hdec : (copy_file_m fsr op.1 op.2 false).1 = (copy_file_m fsd op.1 op.2 true).1 :=
      copy_file_m_congr _ _ _ _ _ _ (hag op.1 (by simp))
    have hdryfs : (copy_file_m fsd op.1 op.2 true).2 = fsd := copy_file_m_dry fsd op.1 op.2
    have hag' : AgreeOn (copy_file_m fsr op.1 op.2 false).2 fsd (opDsts rest ++ others) := by
      intro d hd
      have hne : d ≠ op.1 := fun he => hmemop (he ▸ hd)
      rw [copy_file_m_lookup_ne _ _ _ _ _ hne]
      exact hag d (by simp [hd])
    obtain ⟨hc, hs, hagf⟩ := ih others fsd (copy_file_m fsr op.1 op.2 false).2 hag'
      (List.nodup_cons.mp hnd).2
    refine ⟨?_, ?_, ?_⟩
    · show (if (copy_file_m fsr op.1 op.2 false).1 = copiedStr then
          (execOps rest (copy_file_m fsr op.1 op.2 false).2 false).1 + 1
        else (execOps rest (copy_file_m fsr op.1 op.2 false).2 false).1) =
        (if (copy_file_m fsd op.1 op.2 true).1 = copiedStr then
          (execOps rest (copy_file_m fsd op.1 op.2 true).2 true).1 + 1
        else (execOps rest (copy_file_m fsd op.1 op.2 true).2 true).1)
      rw [hdec, hdryfs, hc]
    · show (if (copy_file_m fsr op.1 op.2 false).1 = copiedStr then
          (execOps rest (copy_file_m fsr op.1 op.2 false).2 false).2.1
        else (execOps rest (copy_file_m fsr op.1 op.2 false).2 false).2.1 + 1) =
        (if (copy_file_m fsd op.1 op.2 true).1 = copiedStr then
          (execOps rest (copy_file_m fsd op.1 op.2 true).2 true).2.1
        else (execOps rest (copy_file_m fsd op.1 op.2 true).2 true).2.1 + 1)
      rw [hdec, hdryfs, hs]
    · show AgreeOn (execOps rest (copy_file_m fsr op.1 op.2 false).2 false).2.2 fsd others
      exact hagf

theorem counters4_eq_of (sd sr : RunStats) (h : counters4 sd = counters4 sr) :
    sd.media_files_copied = sr.media_files_copied ∧
    sd.media_files_skipped = sr.media_files_skipped ∧
    sd.media_categories_attempted = sr.media_categories_attempted ∧
    sd.media_categories_missing = sr.media_categories_missing := by
  unfold counters4 at h
  exact ⟨congrArg (fun t => t.1) h, congrArg (fun t => t.2.1) h,
    congrArg (fun t => t.2.2.1) h, congrArg (fun t => t.2.2.2) h⟩

theorem processCat_missing (idxE idxN : Str → Idx) (fuzzy dry : Bool) (rs rn : Str)
    (acc : RunStats × Fs) (cat : Str)
    (hempty : (find_matches rs rn (idxE cat) (idxN cat) fuzzy).isEmpty = true) :
    processCat idxE idxN fuzzy dry rs rn acc cat =
      ({ acc.1 with
          media_categories_attempted := acc.1.media_categories_attempted + 1,
          media_categories_missing := acc.1.media_categories_missing + 1 }, acc.2) := by
  unfold processCat
  rw [if_pos hempty]

theorem processCat_matched (idxE idxN : Str → Idx) (fuzzy dry : Bool) (rs rn : Str)
    (acc : RunStats × Fs) (cat : Str)
    (hne : (find_matches rs rn (idxE cat) (idxN cat) fuzzy).isEmpty = false) :
    processCat idxE idxN fuzzy dry rs rn acc cat =
      ({ acc.1 with
          media_files_copied := acc.1.media_files_copied +
            (execOps (catOps idxE idxN fuzzy rs rn cat) acc.2 dry).1,
          media_files_skipped := acc.1.media_files_skipped +
            (execOps (catOps idxE idxN fuzzy rs rn cat) acc.2 dry).2.1,
          media_categories_attempted := acc.1.media_categories_attempted + 1 },
       (execOps (catOps idxE idxN fuzzy rs rn cat) acc.2 dry).2.2) := by
  unfold processCat catOps
  rw [if_neg (by rw [hne]; exact Bool.false_ne_true)]

theorem processCat_fold_dry_real (idxE idxN : Str → Idx) (fuzzy : Bool) (rs rn : Str) :
    ∀ (cats : List Str) (others : List Dst) (sd sr : RunStats) (fsd fsr : Fs),
      counters4 sd = counters4 sr →
      AgreeOn fsr fsd (opDsts (cats.flatMap (catOps idxE idxN fuzzy rs rn)) ++ others) →
      (opDsts (cats.flatMap (catOps idxE idxN fuzzy rs rn)) ++ others).Nodup →
      counters4 (cats.foldl (processCat idxE idxN fuzzy true rs rn) (sd, fsd)).1 =
        counters4 (cats.foldl (processCat idxE idxN fuzzy false rs rn) (sr, fsr)).1 ∧
      (cats.foldl (processCat idxE idxN fuzzy true rs rn) (sd, fsd)).2 = fsd ∧
      AgreeOn (cats.foldl (processCat idxE idxN fuzzy false rs rn) (sr, fsr)).2 fsd others := by
  intro cats
  induction cats with
  | nil =>
    intro others sd sr fsd fsr hctr hag _
    exact ⟨hctr, rfl, fun d hd => hag d (by simpa [opDsts] using hd)⟩
  | cons cat rest ih =>
    intro others sd sr fsd fsr hctr hag hnd
    rw [List.foldl_cons, List.foldl_cons]
    have hplan : (cat :: rest).flatMap (catOps idxE idxN fuzzy rs rn) =
        catOps idxE idxN fuzzy rs rn cat ++ rest.flatMap (catOps idxE idxN fuzzy rs rn) := by
      simp
    rw [hplan, opDsts_append, List.append_assoc] at hag hnd
    obtain ⟨h1, h2, h3, h4⟩ := counters4_eq_of sd sr hctr
    by_cases hempty : (find_matches rs rn (idxE cat) (idxN cat) fuzzy).isEmpty
    · have hops : catOps idxE idxN fuzzy rs rn cat = [] := by
        unfold catOps matchOps
        rw [List.isEmpty_iff.mp hempty]
        rfl
      rw [processCat_missing _ _ _ _ _ _ _ _ hempty, processCat_missing _ _ _ _ _ _ _ _ hempty]
      rw [hops] at hag hnd
      simp only [opDsts, List.map_nil, List.nil_append] at hag hnd
      refine ih others _ _ fsd fsr ?_ hag hnd
      simp [counters4, h1, h2, h3, h4]
    · rw [Bool.not_eq_true] at hempty
      rw [processCat_matched _ _ _ _ _ _ _ _ hempty, processCat_matched _ _ _ _ _ _ _ _ hempty]
      obtain ⟨hc, hs, hag'⟩ := execOps_dry_real (catOps idxE idxN fuzzy rs rn cat)
        (opDsts (rest.flatMap (catOps idxE idxN fuzzy rs rn)) ++ others) fsd fsr hag hnd
      have hdfs := execOps_dry_fs (catOps idxE idxN fuzzy rs rn cat) fsd
      have hctr' : counters4 ({ sd with
          media_files_copied := sd.media_files_copied +
            (execOps (catOps idxE idxN fuzzy rs rn cat) fsd true).1,
          media_files_skipped := sd.media_files_skipped +
            (execOps (catOps idxE idxN fuzzy rs rn cat) fsd true).2.1,
          media_categories_attempted := sd.media_categories_attempted + 1 }) =
        counters4 ({ sr with
          media_files_copied := sr.media_files_copied +
            (execOps (catOps idxE idxN fuzzy rs rn cat) fsr false).1,
          media_files_skipped := sr.media_files_skipped +
            (execOps (catOps idxE idxN fuzzy rs rn cat) fsr false).2.1,
          media_categories_attempted := sr.media_categories_attempted + 1 }) := by
        simp [counters4, h1, h2, h3, h4, hc, hs]
      have hrec := ih others _ _ fsd
        ((execOps (catOps idxE idxN fuzzy rs rn cat) fsr false).2.2) hctr' hag'
        (List.Nodup.of_append_right hnd)
      rw [hdfs]
      exact hrec

theorem processGame_skip (system : Str) (effective : List Str) (idxE idxN : Str → Idx)
    (fuzzy dry : Bool) (romFiles : List Str) (acc : RunStats × Fs) (g : Game)
    (h : keep_game romFiles g = false) :
    processGame system effective idxE idxN fuzzy dry romFiles acc g = acc := by
  unfold processGame
  unfold keep_game at h
  cases hp : g.pathText with
  | none => simp only [hp]
  | some pt =>
    rw [hp] at h
    simp only [hp]
    by_cases he : pt.isEmpty
    · rw [if_pos he]
    · rw [if_neg he]
      have hcont : romFiles.contains (normalize_rom_filename_from_xml pt) = false := by
        rw [Bool.and_eq_false_iff] at h
        cases h with
        | inl h =>
          rw [Bool.not_eq_false'] at h
          exact absurd h he
        | inr h => exact h
      rw [if_pos (by rw [hcont]; rfl)]

theorem gameOps_skip (system : Str) (effective : List Str) (idxE idxN : Str → Idx)
    (fuzzy : Bool) (romFiles : List Str) (g : Game)
    (h : keep_game romFiles g = false) :
    gameOps system effective idxE idxN fuzzy romFiles g = [] := by
  unfold gameOps
  unfold keep_game at h
  cases hp : g.pathText with
  | none => simp only [hp]
  | some pt =>
    rw [hp] at h
    simp only [hp]
    by_cases he : pt.isEmpty
    · rw [if_pos he]
    · rw [if_neg he]
      have hcont : romFiles.contains (normalize_rom_filename_from_xml pt) = false := by
        rw [Bool.and_eq_false_iff] at h
        cases h with
        | inl h =>
          rw [Bool.not_eq_false'] at h
          exact absurd h he
        | inr h => exact h
      rw [if_pos (by rw [hcont]; rfl)]

theorem processGame_kept (system : Str) (effective : List Str) (idxE idxN : Str → Idx)
    (fuzzy dry : Bool) (romFiles : List Str) (acc : RunStats × Fs) (g : Game) (pt : Str)
    (hp : g.pathText = some pt) (he : pt.isEmpty = false)
    (hcont : romFiles.contains (normalize_rom_filename_from_xml pt) = true) :
    processGame system effective idxE idxN fuzzy dry romFiles acc g =
      (expected_categories_for g system effective).foldl
        (processCat idxE idxN fuzzy dry
          (toLowerStr (pyStem (normalize_rom_filename_from_xml pt)))
          (normalize_stem_loose (toLowerStr (pyStem (normalize_rom_filename_from_xml pt)))))
        ({ acc.1 with games_kept := acc.1.games_kept + 1 }, acc.2) := by
  unfold processGame
  simp only [hp]
  rw [if_neg (by rw [he]; exact Bool.false_ne_true)]
  rw [if_neg (by rw [hcont]; simp)]

theorem gameOps_kept (system : Str) (effective : List Str) (idxE idxN : Str → Idx)
    (fuzzy : Bool) (romFiles : List Str) (g : Game) (pt : Str)
    (hp : g.pathText = some pt) (he : pt.isEmpty = false)
    (hcont : romFiles.contains (normalize_rom_filename_from_xml pt) = true) :
    gameOps system effective idxE idxN fuzzy romFiles g =
      (expected_categories_for g system effective).flatMap
        (catOps idxE idxN fuzzy
          (toLowerStr (pyStem (normalize_rom_filename_from_xml pt)))
          (normalize_stem_loose (toLowerStr (pyStem (normalize_rom_filename_from_xml pt))))) := by
  unfold gameOps
  simp only [hp]
  rw [if_neg (by rw [he]; exact Bool.false_ne_true)]
  rw [if_neg (by rw [hcont]; simp)]

theorem processGame_fold_dry_real (system : Str) (effective : List Str) (idxE idxN : Str → Idx)
    (fuzzy : Bool) (romFiles : List Str) :
    ∀ (games : List Game) (others : List Dst) (sd sr : RunStats) (fsd fsr : Fs),
      counters4 sd = counters4 sr →
      AgreeOn fsr fsd
        (opDsts (games.flatMap (gameOps system effective idxE idxN fuzzy romFiles)) ++ others) →
      (opDsts (games.flatMap (gameOps system effective idxE idxN fuzzy romFiles)) ++
        others).Nodup →
      counters4 (games.foldl (processGame system effective idxE idxN fuzzy true romFiles)
          (sd, fsd)).1 =
        counters4 (games.foldl (processGame system effective idxE idxN fuzzy false romFiles)
          (sr, fsr)).1 ∧
      (games.foldl (processGame system effective idxE idxN fuzzy true romFiles) (sd, fsd)).2 =
        fsd ∧
      AgreeOn (games.foldl (processGame system effective idxE idxN fuzzy false romFiles)
        (sr, fsr)).2 fsd others := by
  intro games
  induction games with
  | nil =>
    intro others sd sr fsd fsr hctr hag _
    exact ⟨hctr, rfl, fun d hd => hag d (by simpa [opDsts] using hd)⟩
  | cons g rest ih =>
    intro others sd sr fsd fsr hctr hag hnd
    rw [List.foldl_cons, List.foldl_cons]
    have hplan : (g :: rest).flatMap (gameOps system effective idxE idxN fuzzy romFiles) =
        gameOps system effective idxE idxN fuzzy romFiles g ++
          rest.flatMap (gameOps system effective idxE idxN fuzzy romFiles) := by
      simp
    rw [hplan, opDsts_append, List.append_assoc] at hag hnd
    by_cases hk : keep_game romFiles g = true
    · obtain ⟨pt, hp, hne, hcont⟩ :
          ∃ pt, g.pathText = some pt ∧ pt.isEmpty = false ∧
            romFiles.contains (normalize_rom_filename_from_xml pt) = true := by
        unfold keep_game at hk
        cases hpt : g.pathText with
        | none => rw [hpt] at hk; cases hk
        | some pt =>
          rw [hpt] at hk
          rw [Bool.and_eq_true] at hk
          exact ⟨pt, rfl, by simpa using hk.1, hk.2⟩
      rw [processGame_kept system effective idxE idxN fuzzy true romFiles _ g pt hp hne hcont,
        processGame_kept system effective idxE idxN fuzzy false romFiles _ g pt hp hne hcont]
      rw [gameOps_kept system effective idxE idxN fuzzy romFiles g pt hp hne hcont] at hag hnd
      obtain ⟨h1, h2, h3, h4⟩ := counters4_eq_of sd sr hctr
      set rs := toLowerStr (pyStem (normalize_rom_filename_from_xml pt)) with hrs
      set rn := normalize_stem_loose rs with hrn
      obtain ⟨hcats1, hcats2, hcats3⟩ := processCat_fold_dry_real idxE idxN fuzzy rs rn
        (expected_categories_for g system effective)
        (opDsts (rest.flatMap (gameOps system effective idxE idxN fuzzy romFiles)) ++ others)
        ({ sd with games_kept := sd.games_kept + 1 })
        ({ sr with games_kept := sr.games_kept + 1 })
        fsd fsr (by simp [counters4, h1, h2, h3, h4]) hag hnd
      have heta : (expected_categories_for g system effective).foldl
          (processCat idxE idxN fuzzy true rs rn)
          ({ sd with games_kept := sd.games_kept + 1 }, fsd) =
          (((expected_categories_for g system effective).foldl
            (processCat idxE idxN fuzzy true rs rn)
            ({ sd with games_kept := sd.games_kept + 1 }, fsd)).1, fsd) :=
        congrArg (Prod.mk _) hcats2
      rw [heta]
      exact ih others _ _ fsd _ hcats1 hcats3 (List.Nodup.of_append_right hnd)
    · rw [Bool.not_eq_true] at hk
      rw [processGame_skip system effective idxE idxN fuzzy true romFiles _ g hk,
        processGame_skip system effective idxE idxN fuzzy false romFiles _ g hk]
      rw [gameOps_skip system effective idxE idxN fuzzy romFiles g hk] at hag hnd
      simp only [opDsts, List.map_nil, List.nil_append] at hag hnd
      exact ih others sd sr fsd fsr hctr hag hnd

/-- Claim C2 counterexample: with two kept games sharing the stem `game`
and one `covers/game.png`, a preview run reports 2 copies and 0 skips while
the real run reports 1 copy and 1 skip — the real run's own first copy makes
the second size-check succeed, the preview run's cannot.  The claim that
preview and real mode produce identical statistics for every input is
false. -/
theorem c2_counterexample :
    (runBatchSync selCovers false true [sysDup] ({}, [])).stats.media_files_copied = 2 ∧
    (runBatchSync selCovers false true [sysDup] ({}, [])).stats.media_files_skipped = 0 ∧
    (runBatchSync selCovers false false [sysDup] ({}, [])).stats.media_files_copied = 1 ∧
    (runBatchSync selCovers false false [sysDup] ({}, [])).stats.media_files_skipped = 1 ∧
    counters4 (runBatchSync selCovers false true [sysDup] ({}, [])).stats ≠
      counters4 (runBatchSync selCovers false false [sysDup] ({}, [])).stats := by
  refine ⟨by decide, by decide, by decide, by decide, by decide⟩

/-- Claim C2 (amended): for one system's sync pass, a preview run and a real
run from the same inputs produce identical statistics — files copied, files
skipped, categories attempted and categories missing (hence also matched
categories, their difference) — provided no two matched media files map to
the same destination path; when matched destinations collide, the real run's
earlier copies can turn later copies of the same destination into skips,
and only the copied/skipped split can differ.  Only the file-system side
effects differ otherwise. -/
theorem c2_amended_preview_stats (system : Str) (games : List Game) (romFiles selected : List Str)
    (catFiles : Str → List MFile) (fuzzy : Bool) (st : RunStats × Fs)
    (h : (opDsts (syncPlanOps system games romFiles selected catFiles fuzzy)).Nodup) :
    counters4 (syncSystem system games romFiles selected catFiles fuzzy true st).1 =
      counters4 (syncSystem system games romFiles selected catFiles fuzzy false st).1 := by
  unfold syncPlanOps at h
  have hnd : (opDsts (games.flatMap
      (gameOps system (category_scan selected catFiles fuzzy).1 (cat_exact_idx catFiles fuzzy)
        (cat_norm_idx catFiles fuzzy) fuzzy romFiles)) ++ ([] : List Dst)).Nodup := by
    rw [List.append_nil]; exact h
  have hag : AgreeOn st.2 st.2 (opDsts (games.flatMap
      (gameOps system (category_scan selected catFiles fuzzy).1 (cat_exact_idx catFiles fuzzy)
        (cat_norm_idx catFiles fuzzy) fuzzy romFiles)) ++ ([] : List Dst)) := fun d _ => rfl
  obtain ⟨hc, -, -⟩ := processGame_fold_dry_real system (category_scan selected catFiles fuzzy).1
    (cat_exact_idx catFiles fuzzy) (cat_norm_idx catFiles fuzzy) fuzzy romFiles games []
    ({ st.1 with
        categories_ignored_empty_or_missing := st.1.categories_ignored_empty_or_missing +
          (category_scan selected catFiles fuzzy).2,
        games_total_in_master := st.1.games_total_in_master + games.length })
    ({ st.1 with
        categories_ignored_empty_or_missing := st.1.categories_ignored_empty_or_missing +
          (category_scan selected catFiles fuzzy).2,
        games_total_in_master := st.1.games_total_in_master + games.length })
    st.2 st.2 rfl hag hnd
  simp only [syncSystem]
  by_cases hk : countKept games romFiles = 0
  · rw [if_pos hk, if_pos hk]
    exact hc
  · rw [if_neg hk, if_neg hk]
    exact hc

/-! ### Claim C9 -/

theorem collapseRuns_all_not (p : Char → Bool) (r : Char) (l : Str)
    (h : ∀ c ∈ l, p c = false) : ∀ b, collapseRuns p r b l = l := by
  induction l with
  | nil => intro b; rfl
  | cons c cs ih =>
    intro b
    unfold collapseRuns
    rw [if_neg (by rw [h c (by simp)]; simp)]
    rw [ih (fun d hd => h d (by simp [hd]))]

theorem mem_collapseRuns (p : Char → Bool) (r : Char) :
    ∀ (l : Str) (b : Bool) (c : Char), c ∈ collapseRuns p r b l →
      c = r ∨ (c ∈ l ∧ p c = false) := by
  intro l
  induction l with
  | nil => intro b c hc; cases hc
  | cons a t ih =>
    intro b c hc
    unfold collapseRuns at hc
    by_cases hp : p a
    · rw [if_pos hp] at hc
      cases b with
      | true =>
        rcases ih true c hc with h | ⟨h1, h2⟩
        · exact Or.inl h
        · exact Or.inr ⟨by simp [h1], h2⟩
      | false =>
        rw [if_neg (by decide)] at hc
        rw [List.mem_cons] at hc
        cases hc with
        | inl h => exact Or.inl h
        | inr h =>
          rcases ih true c h with h | ⟨h1, h2⟩
          · exact Or.inl h
          · exact Or.inr ⟨by simp [h1], h2⟩
    · rw [if_neg hp] at hc
      rw [List.mem_cons] at hc
      cases hc with
      | inl h =>
        subst h
        exact Or.inr ⟨by simp, by simpa using hp⟩
      | inr h =>
        rcases ih false c h with h | ⟨h1, h2⟩
        · exact Or.inl h
        · exact Or.inr ⟨by simp [h1], h2⟩

theorem head?_collapseRuns_true (p : Char → Bool) (r : Char) :
    ∀ (l : Str) (c : Char), (collapseRuns p r true l).head? = some c → p c = false := by
  intro l
  induction l with
  | nil => intro c hc; cases hc
  | cons a t ih =>
    intro c hc
    unfold collapseRuns at hc
    by_cases hp : p a
    · rw [if_pos hp] at hc
      exact ih c hc
    · rw [if_neg hp] at hc
      rw [List.head?_cons, Option.some_inj] at hc
      subst hc
      simpa using hp

theorem noTwo_collapseRuns (p : Char → Bool) (r : Char) :
    ∀ (l : Str) (b : Bool), NoTwo p (collapseRuns p r b l) := by
  intro l
  induction l with
  | nil => intro b; exact List.chain'_nil
  | cons a t ih =>
    intro b
    unfold collapseRuns
    by_cases hp : p a
    · rw [if_pos hp]
      cases b with
      | true => exact ih true
      | false =>
        rw [if_neg (by decide)]
        rw [NoTwo, List.chain'_cons']
        refine ⟨?_, ih true⟩
        intro y hy
        have := head?_collapseRuns_true p r t y hy
        intro hcon
        rw [this] at hcon
        cases hcon.2
    · rw [if_neg hp]
      rw [NoTwo, List.chain'_cons']
      refine ⟨?_, ih false⟩
      intro y _ hcon
      rw [Bool.not_eq_true] at hp
      rw [hp] at hcon
      cases hcon.1

theorem collapseRuns_true_of_head_neg (p : Char → Bool) (r : Char) (cs : Str)
    (h : cs = [] ∨ ∀ c ∈ cs.head?, p c = false) :
    collapseRuns p r true cs = collapseRuns p r false cs := by
  cases cs with
  | nil => rfl
  | cons a t =>
    cases h with
    | inl h => cases h
    | inr h =>
      have ha : p a = false := h a (by simp)
      unfold collapseRuns
      rw [if_neg (by rw [ha]; simp), if_neg (by rw [ha]; simp)]

theorem collapseRuns_fix (p : Char → Bool) (r : Char) :
    ∀ l : Str, (∀ c ∈ l, p c = true → c = r) → NoTwo p l →
      collapseRuns p r false l = l := by
  intro l
  induction l with
  | nil => intro _ _; rfl
  | cons c cs ih =>
    intro hall hnt
    by_cases hp : p c
    · have hcr : c = r := hall c (by simp) hp
      unfold collapseRuns
      rw [if_pos hp]
      have hhead : cs = [] ∨ ∀ d ∈ cs.head?, p d = false := by
        cases hcs : cs with
        | nil => exact Or.inl rfl
        | cons d t =>
          right
          intro e he
          rw [List.head?_cons, Option.mem_def, Option.some_inj] at he
          rw [hcs] at hnt
          have hrel := (List.chain'_cons'.mp hnt).1 d (by rw [List.head?_cons]; rfl)
          have hpd : p d = false := by
            by_cases hx : p d = true
            · exact absurd ⟨hp, hx⟩ hrel
            · simpa using hx
          rw [← he]
          exact hpd
      rw [if_neg (by decide)]
      rw [collapseRuns_true_of_head_neg p r cs hhead]
      rw [ih (fun d hd hpd => hall d (by simp [hd]) hpd) hnt.tail]
      rw [hcr]
    · unfold collapseRuns
      rw [if_neg hp]
      rw [ih (fun d hd hpd => hall d (by simp [hd]) hpd) hnt.tail]

theorem head?_dropWhile (q : Char → Bool) :
    ∀ (l : Str) (c : Char), c ∈ (l.dropWhile q).head? → q c = false := by
  intro l
  induction l with
  | nil => intro c hc; cases hc
  | cons a t ih =>
    intro c hc
    rw [List.dropWhile_cons] at hc
    by_cases h : q a
    · rw [if_pos h] at hc
      exact ih c hc
    · rw [if_neg h] at hc
      rw [List.head?_cons, Option.mem_def, Option.some_inj] at hc
      subst hc
      simpa using h

theorem dropWhile_eq_self_of_head (q : Char → Bool) (l : Str)
    (h : ∀ c ∈ l.head?, q c = false) : l.dropWhile q = l := by
  cases l with
  | nil => rfl
  | cons a t =>
    rw [List.dropWhile_cons]
    rw [h a (by rw [List.head?_cons]; rfl)]
    simp

theorem pyStrip_eq_self (l : Str) (hh : ∀ c ∈ l.head?, pyIsSpace c = false)
    (hl : ∀ c ∈ l.getLast?, pyIsSpace c = false) : pyStrip l = l := by
  unfold pyStrip
  rw [dropWhile_eq_self_of_head _ _ hh]
  rw [dropWhile_eq_self_of_head _ _ (by
    intro c hc
    rw [List.head?_reverse] at hc
    exact hl c hc)]
  exact List.reverse_reverse l

theorem mem_pyStrip (l : Str) (c : Char) (hc : c ∈ pyStrip l) : c ∈ l := by
  unfold pyStrip at hc
  rw [List.mem_reverse] at hc
  have h1 : c ∈ (l.dropWhile pyIsSpace).reverse :=
    (List.dropWhile_suffix pyIsSpace).subset hc
  rw [List.mem_reverse] at h1
  exact (List.dropWhile_suffix pyIsSpace).subset h1

theorem noTwo_dropWhile (p q : Char → Bool) (l : Str) (h : NoTwo p l) :
    NoTwo p (l.dropWhile q) :=
  List.Chain'.suffix h (List.dropWhile_suffix q)

theorem noTwo_reverse (p : Char → Bool) (l : Str) (h : NoTwo p l) : NoTwo p l.reverse := by
  rw [NoTwo, List.chain'_reverse]
  exact h.imp (fun a b hab => fun hc => hab ⟨hc.2, hc.1⟩)

theorem noTwo_pyStrip (p : Char → Bool) (l : Str) (h : NoTwo p l) : NoTwo p (pyStrip l) := by
  unfold pyStrip
  exact noTwo_reverse _ _ (noTwo_dropWhile _ _ _ (noTwo_reverse _ _ (noTwo_dropWhile _ _ _ h)))

theorem head?_pyStrip (l : Str) : ∀ c ∈ (pyStrip l).head?, pyIsSpace c = false := by
  intro c hc
  unfold pyStrip at hc
  rw [List.head?_reverse] at hc
  cases hY : ((l.dropWhile pyIsSpace).reverse.dropWhile pyIsSpace) with
  | nil => rw [hY] at hc; cases hc
  | cons a t =>
    have hsuf : (l.dropWhile pyIsSpace).reverse.dropWhile pyIsSpace <:+
        (l.dropWhile pyIsSpace).reverse := List.dropWhile_suffix pyIsSpace
    obtain ⟨pre, hpre⟩ := hsuf
    have hne : (l.dropWhile pyIsSpace).reverse.dropWhile pyIsSpace ≠ [] := by
      rw [hY]; simp
    have heq : ((l.dropWhile pyIsSpace).reverse.dropWhile pyIsSpace).getLast? =
        ((l.dropWhile pyIsSpace).reverse).getLast? := by
      conv_rhs => rw [← hpre]
      exact (List.getLast?_append_of_ne_nil pre hne).symm
    rw [heq, List.getLast?_reverse] at hc
    exact head?_dropWhile pyIsSpace l c hc

theorem getLast?_pyStrip (l : Str) : ∀ c ∈ (pyStrip l).getLast?, pyIsSpace c = false := by
  intro c hc
  unfold pyStrip at hc
  rw [List.getLast?_reverse] at hc
  exact head?_dropWhile pyIsSpace _ c hc

theorem map_fix (f : Char → Char) : ∀ l : Str, (∀ c ∈ l, f c = c) → l.map f = l := by
  intro l
  induction l with
  | nil => intro _; rfl
  | cons a t ih =>
    intro h
    rw [List.map_cons, h a (by simp), ih (fun c hc => h c (by simp [hc]))]

theorem pyIsSpace_not_alnum (c : Char) (h : pyIsSpace c = true) : isLowerAlnum c = false := by
  unfold pyIsSpace at h
  simp only [Bool.or_eq_true, decide_eq_true_eq] at h
  rcases h with ((((h | h) | h) | h) | h) | h <;> subst h <;> decide

theorem pyLowerChar_fix (c : Char) (h : isLowerAlnum c = true ∨ c = ' ') :
    pyLowerChar c = c := by
  unfold pyLowerChar
  rw [if_neg]
  rintro ⟨h1, h2⟩
  cases h with
  | inr he =>
    subst he
    exact absurd h1 (by decide)
  | inl ha =>
    unfold isLowerAlnum at ha
    rw [Bool.or_eq_true, Bool.and_eq_true, Bool.and_eq_true] at ha
    cases ha with
    | inl ha =>
      have hle : ('a' : Char) ≤ c := of_decide_eq_true ha.1
      exact absurd (le_trans hle h2) (by decide)
    | inr ha =>
      have hle : c ≤ '9' := of_decide_eq_true ha.2
      exact absurd (le_trans h1 hle) (by decide)

theorem normalize_output_chars (s : Str) :
    ∀ c ∈ normalize_stem_loose s, isLowerAlnum c = true ∨ c = ' ' := by
  intro c hc
  unfold normalize_stem_loose at hc
  have hc3 := mem_pyStrip _ _ hc
  rcases mem_collapseRuns pyIsSpace ' ' _ _ _ hc3 with h | ⟨hc2, hsp⟩
  · exact Or.inr h
  · rcases mem_collapseRuns notWordChar ' ' _ _ _ hc2 with h | ⟨_, hq⟩
    · exact Or.inr h
    · left
      unfold notWordChar at hq
      rw [Bool.not_eq_false', Bool.or_eq_true] at hq
      cases hq with
      | inl h => exact h
      | inr h => rw [h] at hsp; cases hsp

theorem normalize_noTwo (s : Str) : NoTwo pyIsSpace (normalize_stem_loose s) := by
  unfold normalize_stem_loose
  exact noTwo_pyStrip _ _ (noTwo_collapseRuns pyIsSpace ' ' _ false)

theorem normalize_stem_loose_fix (l : Str)
    (hchars : ∀ c ∈ l, isLowerAlnum c = true ∨ c = ' ')
    (hnt : NoTwo pyIsSpace l)
    (hh : ∀ c ∈ l.head?, pyIsSpace c = false)
    (hl : ∀ c ∈ l.getLast?, pyIsSpace c = false) :
    normalize_stem_loose l = l := by
  unfold normalize_stem_loose
  have s1 : toLowerStr l = l := by
    unfold toLowerStr
    exact map_fix _ l (fun c hc => pyLowerChar_fix c (hchars c hc))
  rw [s1]
  have s2 : collapseRuns notWordChar ' ' false l = l := by
    apply collapseRuns_all_not
    intro c hc
    rcases hchars c hc with h | h
    · unfold notWordChar
      rw [h]
      simp
    · subst h
      decide
  rw [s2]
  have s3 : collapseRuns pyIsSpace ' ' false l = l := by
    apply collapseRuns_fix
    · intro c hc hp
      rcases hchars c hc with h | h
      · rw [pyIsSpace_not_alnum c hp] at h
        cases h
      · exact h
    · exact hnt
  rw [s3]
  exact pyStrip_eq_self l hh hl

/-- Claim C9: `normalize_stem_loose` is idempotent — applying it twice gives
the same result as applying it once — and case-insensitive: inputs that
agree after per-character lower-casing (in particular, the same string with
any letters' case changed) normalize identically. -/
theorem c9_normalize_stem_loose (s : Str) :
    normalize_stem_loose (normalize_stem_loose s) = normalize_stem_loose s ∧
    (∀ t : Str, toLowerStr s = toLowerStr t →
      normalize_stem_loose s = normalize_stem_loose t) := by
  constructor
  · apply normalize_stem_loose_fix
    · exact normalize_output_chars s
    · exact normalize_noTwo s
    · unfold normalize_stem_loose
      exact head?_pyStrip _
    · unfold normalize_stem_loose
      exact getLast?_pyStrip _
  · intro t h
    unfold normalize_stem_loose
    rw [show toLowerStr s = toLowerStr t from h]

/-! ### Witnesses -/

theorem c1_output_entry_set_witness :
    ([] : Str) ∉ [romGameRom] ∧
    gamesOf (buildNewRoot none [gameRomEntry, gameZipEntry] [romGameRom]) =
      [gameRomEntry, gameZipEntry].filter (claim_keep [romGameRom]) :=
  ⟨by decide, c1_output_entry_set none [gameRomEntry, gameZipEntry] [romGameRom] (by decide)⟩

theorem c2_amended_preview_stats_witness :
    counters4 (syncSystem nameNsw [gameRomEntry] [romGameRom] selCovers coversOnly false true
      ({}, [])).1 =
    counters4 (syncSystem nameNsw [gameRomEntry] [romGameRom] selCovers coversOnly false false
      ({}, [])).1 :=
  c2_amended_preview_stats nameNsw [gameRomEntry] [romGameRom] selCovers coversOnly false
    ({}, []) (by decide)

theorem c3_amended_isolation_witness :
    (runBatchSync selCovers false false [sysGood] ({}, [])).err = none ∧
    (runBatchSync selCovers false false [sysGood] ({}, [])).completed =
      [sysGood].map (fun i => i.name) :=
  c3_amended_isolation selCovers false false [sysGood] ({}, []) (by decide)

theorem c4_amended_rule_order_witness :
    parse_category_from_media_ref c4witText sysSwitch = some catCovers := by
  have h := (c4_amended_rule_order c4witText sysSwitch (by decide)).2.2 (by decide) (by decide)
  rw [h]
  decide

theorem c5_category_pruning_witness :
    catVideos ∉ (category_scan selCoversVideos coversOnly false).1 ∧
    (category_scan selCoversVideos coversOnly false).2 =
      (selCoversVideos.filter (fun c => (coversOnly c).isEmpty)).length := by
  have h := c5_category_pruning selCoversVideos coversOnly false nameNsw gameRomEntry catVideos
    (by decide) (by decide)
  exact ⟨h.1, h.2.2.2.1⟩

theorem c7_copy_skip_witness :
    copy_file_m [((catCovers, fnGamePng), 5)] (catCovers, fnGamePng) 5 true =
      (skippedStr, [((catCovers, fnGamePng), 5)]) :=
  (c7_copy_skip 5 (DstStat.present 5)).2.2.1 [((catCovers, fnGamePng), 5)]
    (catCovers, fnGamePng) true (by decide)

theorem c8_amended_category_names_witness :
    run_main [catCovers] [] false false = .ok (runBatchSync [catCovers] false false [] ({}, [])) :=
  (c8_amended_category_names [catCovers] [] false false).2.1 (by decide)

theorem c9_normalize_stem_loose_witness :
    normalize_stem_loose (normalize_stem_loose ['S', 'u', 'p', 'e', 'r', '-', 'M', 'a', 'r']) =
      normalize_stem_loose ['S', 'u', 'p', 'e', 'r', '-', 'M', 'a', 'r'] ∧
    normalize_stem_loose ['A', 'b', '!'] = normalize_stem_loose ['a', 'B', '!'] :=
  ⟨(c9_normalize_stem_loose ['S', 'u', 'p', 'e', 'r', '-', 'M', 'a', 'r']).1,
   (c9_normalize_stem_loose ['A', 'b', '!']).2 ['a', 'B', '!'] (by decide)⟩
